import Mathlib

/-!
Verification of the constraint-solver step engine in `lib/Sema/CSStep.cpp`.

The development shallowly embeds the solver-step algorithms:
* `SplitterStep::mergePartialSolutions` (combination enumeration + pruning),
* `ComponentStep::take` / `ComponentStep::resume`,
* `TypeVariableStep::take` / `TypeVariableStep::resume`,
* `DisjunctionStep::shouldSkipChoice` / `shouldShortCircuitAt` /
  `shortCircuitDisjunctionAt`,
* the solver-scope rollback discipline.

Machinery that lives outside this file's C++ source (the `ConstraintSystem`
score type, solution filtering and `SolverScope` internals) is modelled from
the specification, marked as such in the doc comments.
-/

namespace CSStep

/-! ## SplitterStep::mergePartialSolutions (CSStep.cpp:134-187)

The C++ routine enumerates every combination of partial solutions (one per
connected component) with a mixed-radix odometer over `indices`, applies each
combination under a fresh solver scope, skips it when it is worse than the
best solution recorded so far, and otherwise finalizes and records a
`Solution`.  The enumeration state is the index vector `indices`; component
`i` contributes `PartialSolutions[i][indices[i]]`. -/

/-- Product of the per-component partial-solution counts. -/
def prodOf (sizes : List Nat) : Nat := sizes.foldr (· * ·) 1

theorem prodOf_nil : prodOf [] = 1 := rfl

theorem prodOf_cons (n : Nat) (ns : List Nat) : prodOf (n :: ns) = n * prodOf ns := rfl

/-- Model of the inner `for (unsigned n = NumComponents; n > 0; --n)` loop of
`mergePartialSolutions` (CSStep.cpp:167-183): increment the last index; on
overflow zero the tail positions and carry leftward; `none` when the first
position overflows (the C++ `done = true`). -/
def advanceIndices : List Nat → List Nat → Option (List Nat)
  | [], _ => none
  | _ :: _, [] => none
  | n :: ns, i :: t =>
    match advanceIndices ns t with
    | some t' => some (i :: t')
    | none =>
      if i + 1 < n then some ((i + 1) :: List.replicate ns.length 0) else none

/-- The combination selected by an index vector: component `i` contributes
`PartialSolutions[i][indices[i]]` (CSStep.cpp:148). -/
def select (Partials : List (List α)) (idx : List Nat) : List (Option α) :=
  List.zipWith (fun l i => l.get? i) Partials idx

/-- Output of the merge loop: the index combinations visited in order, the
partial-solution selections they denote, the selections for which a
`Solution` was finalized and pushed (CSStep.cpp:152-164), the final
best-solution state and the `anySolutions` flag. -/
structure MergeOut (α β : Type) where
  visited : List (List Nat)
  selections : List (List (Option α))
  solutions : List (List (Option α))
  best : β
  anySolutions : Bool
deriving DecidableEq

/-- Model of the `do { ... } while (!done)` loop of `mergePartialSolutions`
(CSStep.cpp:143-184).  `worse` stands for `CS.worseThanBestSolution()` as a
function of the best-solution state `best` and the applied combination;
`record` stands for finalizing the solution and updating that state.  The
`fuel` argument bounds the iteration count (the loop terminates after
`prodOf sizes` visits, which the run lemma below makes precise). -/
def mergeLoop (Partials : List (List α)) (worse : β → List (Option α) → Bool)
    (record : β → List (Option α) → β) :
    List Nat → β → Nat → MergeOut α β
  | _, best, 0 => ⟨[], [], [], best, false⟩
  | idx, best, fuel + 1 =>
    let applied := select Partials idx
    let pushed := !worse best applied
    let best' := if pushed then record best applied else best
    let rest :=
      match advanceIndices (Partials.map List.length) idx with
      | some idx' => mergeLoop Partials worse record idx' best' fuel
      | none => ⟨[], [], [], best', false⟩
    ⟨idx :: rest.visited, applied :: rest.selections,
      (if pushed then [applied] else []) ++ rest.solutions,
      rest.best, pushed || rest.anySolutions⟩

/-- `SplitterStep::mergePartialSolutions` (CSStep.cpp:134-187): start from the
all-zero index vector (`SmallVector<unsigned, 2> indices(NumComponents, 0)`),
iterate the odometer to completion. -/
def mergePartialSolutions (Partials : List (List α))
    (worse : β → List (Option α) → Bool) (record : β → List (Option α) → β)
    (best0 : β) : MergeOut α β :=
  mergeLoop Partials worse record (List.replicate Partials.length 0) best0
    (prodOf (Partials.map List.length))

/-- Mixed-radix decoding of a counter value into an index vector (last
component fastest): position `i` holds `v / prodOf sizes[i+1..] % sizes[i]`. -/
def decode : List Nat → Nat → List Nat
  | [], _ => []
  | _ :: ns, v => v / prodOf ns :: decode ns (v % prodOf ns)

/-- Mixed-radix encoding, inverse of `decode` on in-range values. -/
def encode : List Nat → List Nat → Nat
  | [], _ => 0
  | _ :: _, [] => 0
  | _ :: ns, i :: t => i * prodOf ns + encode ns t

/-- All index combinations for the given component sizes, in mixed-radix
order with the last component's index incrementing fastest. -/
def allTuples : List Nat → List (List Nat)
  | [] => [[]]
  | n :: ns => (List.range n).flatMap fun i => (allTuples ns).map (i :: ·)

/-- Reference form of the merge loop's prune-and-record pass: fold over the
visited selections, dropping each one that is worse than the evolving best
state and recording the others. -/
def pruneFold (worse : β → σ → Bool) (record : β → σ → β) : β → List σ → β × List σ
  | b, [] => (b, [])
  | b, s :: rest =>
    if worse b s then pruneFold worse record b rest
    else
      let out := pruneFold worse record (record b s) rest
      (out.1, s :: out.2)

/-! ## ComponentStep (CSStep.cpp:189-272) -/

/-- Classification of a constraint, as consulted by the
`constraint.getClassification()` switch in `ComponentStep::take`
(CSStep.cpp:237-245).  Kinds other than `Relational` and `Member` all take
the `default` branch there, so they are collapsed into representatives. -/
inductive ConstraintClassification
  | Relational
  | Member
  | TypeProperty
  | Disjunction
deriving DecidableEq

/-- The two fields of `CS.determineBestBindings()`'s result that
`ComponentStep::take` consults (CSStep.cpp:215-216). -/
structure PotentialBindings where
  InvolvesTypeVariables : Bool
  FullyBound : Bool
deriving DecidableEq

/-- The constraint-system state consulted by `ComponentStep::take`:
whether `CS.selectDisjunction()` finds a disjunction, the result of
`CS.determineBestBindings()`, the free-type-variable configuration, the
branch-and-bound comparison, and the classifications of the inactive
constraints. -/
structure ComponentCtx where
  disjunction : Bool
  bestBindings : Option PotentialBindings
  allowsFreeTypeVariables : Bool
  hasFreeTypeVariables : Bool
  worseThanBestSolution : Bool
  InactiveConstraints : List ConstraintClassification
deriving DecidableEq

/-- Possible outcomes of `ComponentStep::take` (CSStep.cpp:196-255).
`doneSuccess` covers the path that finalizes a `Solution`, pushes it onto
`Solutions` and returns `done(true)`. -/
inductive ComponentTakeResult
  | doneFailure
  | suspendTypeVariableStep
  | suspendDisjunctionStep
  | doneSuccess
deriving DecidableEq

/-- The `bestBindings && (!disjunction || (!bestBindings->InvolvesTypeVariables
&& !bestBindings->FullyBound))` guard of CSStep.cpp:215-216. -/
def bestBindingsGuard (ctx : ComponentCtx) : Bool :=
  match ctx.bestBindings with
  | some b => !ctx.disjunction || (!b.InvolvesTypeVariables && !b.FullyBound)
  | none => false

/-- Model of `ComponentStep::take` (CSStep.cpp:196-255). -/
def componentTake (prevFailed : Bool) (ctx : ComponentCtx) : ComponentTakeResult :=
  if prevFailed then .doneFailure
  else if bestBindingsGuard ctx then .suspendTypeVariableStep
  else if ctx.disjunction then .suspendDisjunctionStep
  else if !ctx.allowsFreeTypeVariables || !ctx.hasFreeTypeVariables then .doneFailure
  else if ctx.worseThanBestSolution then .doneFailure
  else if ctx.InactiveConstraints.all
      (fun c => c == ConstraintClassification.Relational
             || c == ConstraintClassification.Member) then .doneSuccess
  else .doneFailure

/-- A partial solution as far as `ComponentStep::resume` is concerned: only
its fixed score is consulted (`solution.getFixedScore()`, CSStep.cpp:264).
The score type is kept abstract; per the spec, `Score` carries value-wise
subtraction and a linear (lexicographic-with-weights) comparison. -/
structure Sol (β : Type) where
  score : β
deriving DecidableEq

/-- Modelled from the spec: `filterSolutions(Solutions, minimize=true)`
(declared in ConstraintSystem.h, not part of this source file) filters the
accumulated solutions to the minimal-score subset — ties kept, strictly
dominated solutions discarded. -/
def filterSolutions [LinearOrder β] (Solutions : List (Sol β)) : List (Sol β) :=
  match Solutions with
  | [] => []
  | s :: rest =>
    let m := (rest.map Sol.score).foldl min s.score
    (s :: rest).filter fun t => t.score ≤ m

/-- Model of `ComponentStep::resume` (CSStep.cpp:257-272): on child failure
report failure; otherwise subtract the component's original score from every
accumulated partial solution, filter to the minimal subset, and report
success.  The returned flag is the `isSuccess` of the `done(...)` result. -/
def componentResume [LinearOrder β] [Sub β] (prevFailed : Bool) (OriginalScore : β)
    (Solutions : List (Sol β)) : Bool × List (Sol β) :=
  if prevFailed then (false, Solutions)
  else
    (true,
      filterSolutions (Solutions.map fun s => { s with score := s.score - OriginalScore }))

/-! ## TypeVariableStep (CSStep.cpp:274-360) -/

/-- A type-variable binding as consulted by `TypeVariableStep::take`: the
`isDefaultable()` and `hasDefaultedProtocol()` tags, whether
`binding->attempt(CS)` succeeds, whether the `SplitterStep` explored under
the binding finds any solution (`!prevFailed` at the matching `resume`), and
what `Producer.needsToComputeNext()` reports at that `resume`. -/
structure TVBinding where
  isDefaultable : Bool
  hasDefaultedProtocol : Bool
  attemptOk : Bool
  solves : Bool
  needsNext : Bool
deriving DecidableEq

/-- What `TypeVariableStep::take` did with one produced binding. -/
inductive TVAction
  | skipped
  | stopped
  | failedAttempt
  | explored
deriving DecidableEq

/-- One entry of the exploration trace: the binding together with the
`AnySolved` and `SawFirstLiteralConstraint` state at the moment the producer
yielded it, and the action taken. -/
structure TVEvent where
  binding : TVBinding
  anySolved : Bool
  sawLit : Bool
  action : TVAction
deriving DecidableEq

/-- Model of the `TypeVariableStep::take` / `TypeVariableStep::resume` loop
(CSStep.cpp:291-360) over the producer's binding sequence.  Returns the
final `done(...)` success flag and the trace of processed bindings:
* a defaultable binding is skipped once `AnySolved` holds (CSStep.cpp:300);
* a defaulted-protocol binding stops the enumeration when `AnySolved` holds
  and no literal constraint was seen (CSStep.cpp:305), returning
  `done(AnySolved)`;
* otherwise `SawFirstLiteralConstraint` absorbs `hasDefaultedProtocol`
  (CSStep.cpp:316) and the binding is attempted: a failed attempt moves on;
  a successful attempt suspends into a `SplitterStep`, whose outcome feeds
  `AnySolved |= !prevFailed` at `resume` (CSStep.cpp:343), which returns
  `done(true)` early when `AnySolved && Producer.needsToComputeNext()`
  (CSStep.cpp:355) and otherwise re-enters `take`. -/
def typeVariableRun : List TVBinding → Bool → Bool → Bool × List TVEvent
  | [], anySolved, _ => (anySolved, [])
  | b :: rest, anySolved, sawLit =>
    if anySolved && b.isDefaultable then
      let out := typeVariableRun rest anySolved sawLit
      (out.1, ⟨b, anySolved, sawLit, .skipped⟩ :: out.2)
    else if anySolved && b.hasDefaultedProtocol && !sawLit then
      (anySolved, [⟨b, anySolved, sawLit, .stopped⟩])
    else
      let sawLit' := sawLit || b.hasDefaultedProtocol
      if b.attemptOk then
        let anySolved' := anySolved || b.solves
        if anySolved' && b.needsNext then
          (true, [⟨b, anySolved, sawLit, .explored⟩])
        else
          let out := typeVariableRun rest anySolved' sawLit'
          (out.1, ⟨b, anySolved, sawLit, .explored⟩ :: out.2)
      else
        let out := typeVariableRun rest anySolved sawLit'
        (out.1, ⟨b, anySolved, sawLit, .failedAttempt⟩ :: out.2)

/-! ## DisjunctionStep (CSStep.cpp:362-541) -/

/-- Conversion restrictions distinguished by `shortCircuitDisjunctionAt`
(CSStep.cpp:521-534); all others behave like `OtherRestriction`. -/
inductive ConversionRestrictionKind
  | OptionalToOptional
  | ArrayToPointer
  | InoutToPointer
  | OtherRestriction
deriving DecidableEq

/-- Constraint kinds distinguished by `shortCircuitDisjunctionAt`
(CSStep.cpp:537); all kinds other than `CheckedCast` behave alike there. -/
inductive ConstraintKind
  | CheckedCast
  | BindOverload
  | OtherKind
deriving DecidableEq

/-- A disjunction choice as consulted by `shouldSkipChoice` and
`shortCircuitDisjunctionAt`: the flag accessors of the underlying
`Constraint`, `getFix() != nullptr`, `getRestriction()` and `getKind()`. -/
structure DisjunctionChoice where
  isDisabled : Bool
  isUnavailable : Bool
  isGenericOperator : Bool
  isFavored : Bool
  hasFix : Bool
  restriction : Option ConversionRestrictionKind
  kind : ConstraintKind
deriving DecidableEq

/-- Modelled from the spec: the solver `Score` (defined in
ConstraintSystem.h, not part of this source file) is a fixed-size vector of
counters.  Only the four dimensions consulted by `DisjunctionStep`
(`SK_ForceUnchecked`, `SK_Unavailable`, `SK_Fix`, `SK_FunctionConversion`,
CSStep.cpp:470-471 and 485-486) are named; the remaining dimensions are
collapsed into `other`. -/
structure Score where
  forceUnchecked : Nat
  unavailable : Nat
  fix : Nat
  functionConversion : Nat
  other : Nat
deriving DecidableEq

/-- Modelled from the spec: value-wise score subtraction, used for the
`LastSolvedChoice->second - getCurrentScore()` delta (CSStep.cpp:484). -/
def Score.sub (a b : Score) : Score :=
  ⟨a.forceUnchecked - b.forceUnchecked, a.unavailable - b.unavailable,
    a.fix - b.fix, a.functionConversion - b.functionConversion, a.other - b.other⟩

/-- The `DisjunctionStep` state consulted by its skip / short-circuit
heuristics: `CS.shouldAttemptFixes()`, the
`DisableConstraintSolverPerformanceHacks` language option,
`BestNonGenericScore`, `LastSolvedChoice` and `getCurrentScore()`. -/
structure DisjunctionCtx where
  shouldAttemptFixes : Bool
  DisableConstraintSolverPerformanceHacks : Bool
  BestNonGenericScore : Option Score
  LastSolvedChoice : Option (DisjunctionChoice × Score)
  CurrentScore : Score
deriving DecidableEq

/-- Model of `DisjunctionStep::shouldSkipChoice` (CSStep.cpp:434-476). -/
def shouldSkipChoice (ctx : DisjunctionCtx) (choice : DisjunctionChoice) : Bool :=
  if choice.isDisabled then true
  else if !ctx.shouldAttemptFixes && choice.isUnavailable then true
  else if ctx.DisableConstraintSolverPerformanceHacks then false
  else
    match ctx.BestNonGenericScore with
    | some best =>
      if choice.isGenericOperator && best.forceUnchecked == 0 && best.unavailable == 0
          && best.fix == 0 && best.functionConversion == 0 then true
      else false
    | none => false

/-- Model of `DisjunctionStep::shortCircuitDisjunctionAt`
(CSStep.cpp:496-541). -/
def shortCircuitDisjunctionAt (DisableConstraintSolverPerformanceHacks : Bool)
    (currentChoice lastSuccessfulChoice : DisjunctionChoice) : Bool :=
  if DisableConstraintSolverPerformanceHacks then false
  else if lastSuccessfulChoice.isFavored && !currentChoice.isFavored then true
  else if currentChoice.hasFix && !lastSuccessfulChoice.hasFix then true
  else
    match currentChoice.restriction with
    | some restriction =>
      if restriction == ConversionRestrictionKind.OptionalToOptional then true
      else if (match lastSuccessfulChoice.restriction with
        | some successfulRestriction =>
          successfulRestriction == ConversionRestrictionKind.ArrayToPointer
            && restriction == ConversionRestrictionKind.InoutToPointer
        | none => false) then true
      else currentChoice.kind == ConstraintKind.CheckedCast
    | none => currentChoice.kind == ConstraintKind.CheckedCast

/-- Model of `DisjunctionStep::shouldShortCircuitAt` (CSStep.cpp:478-494). -/
def shouldShortCircuitAt (ctx : DisjunctionCtx) (choice : DisjunctionChoice) : Bool :=
  match ctx.LastSolvedChoice with
  | none => false
  | some lastSolved =>
    let delta := Score.sub lastSolved.2 ctx.CurrentScore
    let hasUnavailableOverloads := decide (delta.unavailable > 0)
    let hasFixes := decide (delta.fix > 0)
    !hasUnavailableOverloads && !hasFixes
      && shortCircuitDisjunctionAt ctx.DisableConstraintSolverPerformanceHacks choice
        lastSolved.1

/-! ## Scope rollback (CSStep.cpp:29-47, 321, 339, 381, 428)

`TypeVariableStep` and `DisjunctionStep` attempt every binding / choice
under a `ConstraintSystem::SolverScope` and release it on `resume`
(`ActiveChoice.reset()`).  The scope machinery itself lives in
ConstraintSystem.h, outside this source file, so it is modelled from the
spec: a scope records only the delta needed to restore the tracked
type-variable set, the tracked constraint set and the variable bindings,
and releasing it restores exactly the state at scope creation. -/

/-- Modelled from the spec: the mutable solver state a scope protects — the
tracked type variables, the tracked (inactive) constraint list and the trail
of type-variable binding assignments.  Variables, constraints and types are
represented by numeric identifiers. -/
structure SolverState where
  TypeVariables : List Nat
  InactiveConstraints : List Nat
  assignments : List (Nat × Nat)
deriving DecidableEq

/-- A state change performed while exploring under a scope: tracking a fresh
type variable, tracking a constraint, retiring the most recently tracked
constraint (simplification), or assigning a fixed type to a variable. -/
inductive SolverChange
  | addTypeVariable (v : Nat)
  | addConstraint (c : Nat)
  | retireConstraint
  | assignFixedType (v t : Nat)
deriving DecidableEq

/-- An undo record held by a scope, one per change. -/
inductive SolverUndo
  | droppedTypeVariable
  | droppedConstraint
  | restoredConstraint (c : Option Nat)
  | droppedAssignment
deriving DecidableEq

/-- Apply one change to the solver state. -/
def applyChange (s : SolverState) : SolverChange → SolverState
  | .addTypeVariable v => { s with TypeVariables := s.TypeVariables ++ [v] }
  | .addConstraint c => { s with InactiveConstraints := s.InactiveConstraints ++ [c] }
  | .retireConstraint => { s with InactiveConstraints := s.InactiveConstraints.dropLast }
  | .assignFixedType v t => { s with assignments := s.assignments ++ [(v, t)] }

/-- The undo record a scope stores for one change, computed against the
state the change is applied to. -/
def recordUndo (s : SolverState) : SolverChange → SolverUndo
  | .addTypeVariable _ => .droppedTypeVariable
  | .addConstraint _ => .droppedConstraint
  | .retireConstraint => .restoredConstraint s.InactiveConstraints.getLast?
  | .assignFixedType _ _ => .droppedAssignment

/-- Apply one undo record. -/
def applyUndo (s : SolverState) : SolverUndo → SolverState
  | .droppedTypeVariable => { s with TypeVariables := s.TypeVariables.dropLast }
  | .droppedConstraint => { s with InactiveConstraints := s.InactiveConstraints.dropLast }
  | .restoredConstraint c =>
    match c with
    | some c => { s with InactiveConstraints := s.InactiveConstraints ++ [c] }
    | none => s
  | .droppedAssignment => { s with assignments := s.assignments.dropLast }

/-- Run a sequence of changes from a state, accumulating the scope's undo
trail with the most recent change first. -/
def applyChanges : SolverState → List SolverChange → SolverState × List SolverUndo
  | s, [] => (s, [])
  | s, c :: cs =>
    let out := applyChanges (applyChange s c) cs
    (out.1, out.2 ++ [recordUndo s c])

/-- Release a scope: replay the undo trail (most recent change first). -/
def releaseScope (s : SolverState) (trail : List SolverUndo) : SolverState :=
  trail.foldl applyUndo s

theorem prodOf_pos {sizes : List Nat} (h : ∀ n ∈ sizes, 0 < n) : 0 < prodOf sizes := by
  induction sizes with
  | nil => simp [prodOf]
  | cons n ns ih =>
    rw [prodOf_cons]
    exact Nat.mul_pos (h n (by simp)) (ih fun m hm => h m (by simp [hm]))

theorem decode_zero (sizes : List Nat) : decode sizes 0 = List.replicate sizes.length 0 := by
  induction sizes with
  | nil => rfl
  | cons n ns ih => simp [decode, ih, List.replicate_succ]

theorem decode_length (sizes : List Nat) (v : Nat) : (decode sizes v).length = sizes.length := by
  induction sizes generalizing v with
  | nil => rfl
  | cons n ns ih => simp [decode, ih]

theorem advanceIndices_decode_none :
    ∀ sizes : List Nat, (∀ n ∈ sizes, 0 < n) → ∀ v : Nat, v + 1 = prodOf sizes →
      advanceIndices sizes (decode sizes v) = none := by
  intro sizes
  induction sizes with
  | nil =>
    intro _ v hv
    rw [prodOf_nil] at hv
    have hv0 : v = 0 := by omega
    subst hv0
    rfl
  | cons n ns ih =>
    intro hpos v hv
    have hpos' : ∀ m ∈ ns, 0 < m := fun m hm => hpos m (by simp [hm])
    have hp : 0 < prodOf ns := prodOf_pos hpos'
    rw [prodOf_cons, mul_comm n (prodOf ns)] at hv
    have hdm := Nat.div_add_mod v (prodOf ns)
    have hr : v % prodOf ns < prodOf ns := Nat.mod_lt _ hp
    have key : prodOf ns * (v / prodOf ns) + (v % prodOf ns + 1) = prodOf ns * n := by
      omega
    have hexp : prodOf ns * (v / prodOf ns + 1) = prodOf ns * (v / prodOf ns) + prodOf ns := by
      ring
    have hqlt : v / prodOf ns < n := by
      have h2 : prodOf ns * (v / prodOf ns) < prodOf ns * n := by omega
      exact Nat.lt_of_mul_lt_mul_left h2
    have hqge : n ≤ v / prodOf ns + 1 := by
      have h3 : prodOf ns * n ≤ prodOf ns * (v / prodOf ns + 1) := by omega
      exact Nat.le_of_mul_le_mul_left h3 hp
    have hq : v / prodOf ns + 1 = n := by omega
    have h4 : prodOf ns * n = prodOf ns * (v / prodOf ns) + prodOf ns := by
      rw [← hq]; ring
    have hr1 : v % prodOf ns + 1 = prodOf ns := by omega
    simp only [decode, advanceIndices, ih hpos' _ hr1]
    rw [if_neg (by omega)]

theorem advanceIndices_decode_some :
    ∀ sizes : List Nat, (∀ n ∈ sizes, 0 < n) → ∀ v : Nat, v + 1 < prodOf sizes →
      advanceIndices sizes (decode sizes v) = some (decode sizes (v + 1)) := by
  intro sizes
  induction sizes with
  | nil =>
    intro _ v hv
    rw [prodOf_nil] at hv
    omega
  | cons n ns ih =>
    intro hpos v hv
    have hpos' : ∀ m ∈ ns, 0 < m := fun m hm => hpos m (by simp [hm])
    have hp : 0 < prodOf ns := prodOf_pos hpos'
    rw [prodOf_cons, mul_comm n (prodOf ns)] at hv
    have hdm := Nat.div_add_mod v (prodOf ns)
    have hr : v % prodOf ns < prodOf ns := Nat.mod_lt _ hp
    rcases Nat.lt_or_ge (v % prodOf ns + 1) (prodOf ns) with hcase | hcase
    · -- no carry out of the tail: the recursive advance succeeds
      have inner := ih hpos' (v % prodOf ns) hcase
      have hsplit : v + 1 = (v % prodOf ns + 1) + prodOf ns * (v / prodOf ns) := by omega
      have hdiv : (v + 1) / prodOf ns = v / prodOf ns := by
        rw [hsplit, Nat.add_mul_div_left _ _ hp, Nat.div_eq_of_lt hcase, Nat.zero_add]
      have hmod : (v + 1) % prodOf ns = v % prodOf ns + 1 := by
        rw [hsplit, Nat.add_mul_mod_self_left, Nat.mod_eq_of_lt hcase]
      simp only [decode, advanceIndices, inner, hdiv, hmod]
    · -- the tail carries: its advance is exhausted, increment this position
      have hr1 : v % prodOf ns + 1 = prodOf ns := by omega
      have inner := advanceIndices_decode_none ns hpos' (v % prodOf ns) hr1
      have hv1 : v + 1 = prodOf ns * (v / prodOf ns + 1) := by
        have : prodOf ns * (v / prodOf ns + 1) = prodOf ns * (v / prodOf ns) + prodOf ns := by
          ring
        omega
      have hqlt : v / prodOf ns + 1 < n := by
        have h2 : prodOf ns * (v / prodOf ns + 1) < prodOf ns * n := by omega
        exact Nat.lt_of_mul_lt_mul_left h2
      have hdiv : (v + 1) / prodOf ns = v / prodOf ns + 1 := by
        rw [hv1, Nat.mul_div_cancel_left _ hp]
      have hmod : (v + 1) % prodOf ns = 0 := by
        rw [hv1, Nat.mul_mod_right]
      simp only [decode, advanceIndices, inner, hdiv, hmod, decode_zero]
      rw [if_pos hqlt]

theorem mergeLoop_run (Partials : List (List α)) (worse : β → List (Option α) → Bool)
    (record : β → List (Option α) → β)
    (hpos : ∀ n ∈ Partials.map List.length, 0 < n) :
    ∀ (fuel v : Nat) (b : β), v + fuel = prodOf (Partials.map List.length) →
      mergeLoop Partials worse record (decode (Partials.map List.length) v) b fuel =
        { visited := (List.range' v fuel).map (decode (Partials.map List.length)),
          selections := (List.range' v fuel).map
            (fun w => select Partials (decode (Partials.map List.length) w)),
          solutions := (pruneFold worse record b ((List.range' v fuel).map
            (fun w => select Partials (decode (Partials.map List.length) w)))).2,
          best := (pruneFold worse record b ((List.range' v fuel).map
            (fun w => select Partials (decode (Partials.map List.length) w)))).1,
          anySolutions := !((pruneFold worse record b ((List.range' v fuel).map
            (fun w => select Partials (decode (Partials.map List.length) w)))).2.isEmpty) } := by
  intro fuel
  induction fuel with
  | zero =>
    intro v b _
    simp [mergeLoop, pruneFold, List.range'_zero]
  | succ fuel ih =>
    intro v b hv
    rcases Nat.eq_zero_or_pos fuel with hf | hf
    · subst hf
      have hadv := advanceIndices_decode_none _ hpos v (by omega)
      cases hw : worse b (select Partials (decode (Partials.map List.length) v)) with
      | false =>
        simp [mergeLoop, hadv, hw, pruneFold, List.range'_succ, List.range'_zero]
      | true =>
        simp [mergeLoop, hadv, hw, pruneFold, List.range'_succ, List.range'_zero]
    · have hv1 : v + 1 < prodOf (Partials.map List.length) := by omega
      have hadv := advanceIndices_decode_some _ hpos v hv1
      cases hw : worse b (select Partials (decode (Partials.map List.length) v)) with
      | false =>
        have ihv := ih (v + 1)
          (record b (select Partials (decode (Partials.map List.length) v))) (by omega)
        simp [mergeLoop, hadv, hw, ihv, pruneFold, List.range'_succ]
      | true =>
        have ihv := ih (v + 1) b (by omega)
        simp [mergeLoop, hadv, hw, ihv, pruneFold, List.range'_succ]

theorem mergePartialSolutions_spec (Partials : List (List α))
    (worse : β → List (Option α) → Bool) (record : β → List (Option α) → β) (best0 : β)
    (hpos : ∀ l ∈ Partials, l ≠ []) :
    mergePartialSolutions Partials worse record best0 =
      { visited := (List.range (prodOf (Partials.map List.length))).map
          (decode (Partials.map List.length)),
        selections := (List.range (prodOf (Partials.map List.length))).map
          (fun w => select Partials (decode (Partials.map List.length) w)),
        solutions := (pruneFold worse record best0
          ((List.range (prodOf (Partials.map List.length))).map
            (fun w => select Partials (decode (Partials.map List.length) w)))).2,
        best := (pruneFold worse record best0
          ((List.range (prodOf (Partials.map List.length))).map
            (fun w => select Partials (decode (Partials.map List.length) w)))).1,
        anySolutions := !((pruneFold worse record best0
          ((List.range (prodOf (Partials.map List.length))).map
            (fun w => select Partials (decode (Partials.map List.length) w)))).2.isEmpty) } := by
  have hpos' : ∀ n ∈ Partials.map List.length, 0 < n := by
    intro n hn
    rw [List.mem_map] at hn
    obtain ⟨l, hl, rfl⟩ := hn
    exact List.length_pos.mpr (hpos l hl)
  have h0 : List.replicate Partials.length 0 = decode (Partials.map List.length) 0 := by
    rw [decode_zero, List.length_map]
  rw [mergePartialSolutions, h0,
    mergeLoop_run Partials worse record hpos' (prodOf (Partials.map List.length)) 0 best0
      (by omega), List.range_eq_range']

theorem decode_cons_add {n : Nat} {ns : List Nat} (hp : 0 < prodOf ns) (i j : Nat)
    (hj : j < prodOf ns) : decode (n :: ns) (prodOf ns * i + j) = i :: decode ns j := by
  have hdiv : (prodOf ns * i + j) / prodOf ns = i := by
    rw [Nat.add_comm, Nat.add_mul_div_left _ _ hp, Nat.div_eq_of_lt hj, Nat.zero_add]
  have hmod : (prodOf ns * i + j) % prodOf ns = j := by
    rw [Nat.add_comm, Nat.add_mul_mod_self_left, Nat.mod_eq_of_lt hj]
  simp [decode, hdiv, hmod]

theorem map_range_mul (f : Nat → γ) (n p : Nat) :
    (List.range (n * p)).map f =
      (List.range n).flatMap fun i => (List.range p).map fun j => f (p * i + j) := by
  induction n with
  | zero => simp
  | succ n ih =>
    rw [Nat.succ_mul, List.range_add, List.map_append, ih, List.range_succ,
      List.flatMap_append, List.flatMap_singleton]
    congr 1
    rw [List.map_map]
    apply List.map_congr_left
    intro j _
    simp [mul_comm p n]

theorem allTuples_eq_map_decode :
    ∀ sizes : List Nat, (∀ n ∈ sizes, 0 < n) →
      allTuples sizes = (List.range (prodOf sizes)).map (decode sizes) := by
  intro sizes
  induction sizes with
  | nil =>
    intro _
    rw [prodOf_nil]
    rfl
  | cons n ns ih =>
    intro hpos
    have hpos' : ∀ m ∈ ns, 0 < m := fun m hm => hpos m (by simp [hm])
    have hp : 0 < prodOf ns := prodOf_pos hpos'
    rw [prodOf_cons, map_range_mul (decode (n :: ns)) n (prodOf ns)]
    show (List.range n).flatMap (fun i => (allTuples ns).map (i :: ·)) = _
    rw [ih hpos']
    congr 1
    funext i
    rw [List.map_map]
    apply List.map_congr_left
    intro j hj
    rw [List.mem_range] at hj
    show i :: decode ns j = _
    exact (decode_cons_add hp i j hj).symm

theorem mem_allTuples :
    ∀ (sizes : List Nat) (t : List Nat),
      t ∈ allTuples sizes ↔ List.Forall₂ (· < ·) t sizes := by
  intro sizes
  induction sizes with
  | nil =>
    intro t
    simp [allTuples, List.forall₂_nil_right_iff]
  | cons n ns ih =>
    intro t
    simp only [allTuples, List.mem_flatMap, List.mem_map, List.mem_range,
      List.forall₂_cons_right_iff]
    constructor
    · rintro ⟨i, hi, t', ht', rfl⟩
      exact ⟨i, t', hi, (ih t').mp ht', rfl⟩
    · rintro ⟨i, t', hi, ht', rfl⟩
      exact ⟨i, hi, t', (ih t').mpr ht', rfl⟩

theorem encode_decode :
    ∀ sizes : List Nat, (∀ n ∈ sizes, 0 < n) → ∀ v : Nat, v < prodOf sizes →
      encode sizes (decode sizes v) = v := by
  intro sizes
  induction sizes with
  | nil =>
    intro _ v hv
    rw [prodOf_nil] at hv
    interval_cases v
    rfl
  | cons n ns ih =>
    intro hpos v _
    have hpos' : ∀ m ∈ ns, 0 < m := fun m hm => hpos m (by simp [hm])
    have hp : 0 < prodOf ns := prodOf_pos hpos'
    have hdm := Nat.div_add_mod v (prodOf ns)
    have hr : v % prodOf ns < prodOf ns := Nat.mod_lt _ hp
    simp only [decode, encode, ih hpos' _ hr]
    rw [Nat.mul_comm (v / prodOf ns) (prodOf ns)]
    omega

theorem allTuples_nodup (sizes : List Nat) (hpos : ∀ n ∈ sizes, 0 < n) :
    (allTuples sizes).Nodup := by
  rw [allTuples_eq_map_decode sizes hpos]
  refine List.Nodup.map_on ?_ (List.nodup_range _)
  intro x hx y hy hxy
  rw [List.mem_range] at hx hy
  have ex := encode_decode sizes hpos x hx
  have ey := encode_decode sizes hpos y hy
  rw [← ex, ← ey, hxy]

theorem decode_forall₂ :
    ∀ sizes : List Nat, (∀ n ∈ sizes, 0 < n) → ∀ v : Nat, v < prodOf sizes →
      List.Forall₂ (· < ·) (decode sizes v) sizes := by
  intro sizes
  induction sizes with
  | nil =>
    intro _ v _
    exact List.Forall₂.nil
  | cons n ns ih =>
    intro hpos v hv
    have hpos' : ∀ m ∈ ns, 0 < m := fun m hm => hpos m (by simp [hm])
    have hp : 0 < prodOf ns := prodOf_pos hpos'
    rw [prodOf_cons] at hv
    refine List.Forall₂.cons ?_ (ih hpos' _ (Nat.mod_lt _ hp))
    exact (Nat.div_lt_iff_lt_mul hp).mpr hv

theorem select_isSome :
    ∀ (Partials : List (List α)) (idx : List Nat),
      List.Forall₂ (· < ·) idx (Partials.map List.length) →
      ∀ o ∈ select Partials idx, o.isSome = true := by
  intro Partials
  induction Partials with
  | nil =>
    intro idx _ o ho
    simp [select] at ho
  | cons l ls ih =>
    intro idx h o ho
    cases idx with
    | nil => simp [select] at ho
    | cons i t =>
      rw [List.map_cons, List.forall₂_cons] at h
      rw [select, List.zipWith_cons_cons, List.mem_cons] at ho
      rcases ho with rfl | ho
      · rw [List.get?_eq_getElem?, List.getElem?_eq_getElem h.1]
        rfl
      · exact ih t h.2 o ho

theorem pruneFold_sublist (worse : β → σ → Bool) (record : β → σ → β) :
    ∀ (b : β) (l : List σ), (pruneFold worse record b l).2.Sublist l := by
  intro b l
  induction l generalizing b with
  | nil => simp [pruneFold]
  | cons s rest ih =>
    rw [pruneFold]
    cases h : worse b s with
    | true =>
      simp only [if_pos rfl]
      exact (ih b).cons s
    | false =>
      simp only [Bool.false_eq_true, if_false]
      exact (ih (record b s)).cons₂ s

theorem foldl_min_le [LinearOrder β] :
    ∀ (l : List β) (a : β), l.foldl min a ≤ a ∧ ∀ x ∈ l, l.foldl min a ≤ x := by
  intro l
  induction l with
  | nil => simp
  | cons x xs ih =>
    intro a
    rw [List.foldl_cons]
    obtain ⟨h1, h2⟩ := ih (min a x)
    refine ⟨h1.trans (min_le_left a x), ?_⟩
    intro y hy
    rcases List.mem_cons.mp hy with rfl | hy
    · exact h1.trans (min_le_right a y)
    · exact h2 y hy

theorem foldl_min_mem [LinearOrder β] :
    ∀ (l : List β) (a : β), l.foldl min a = a ∨ l.foldl min a ∈ l := by
  intro l
  induction l with
  | nil => intro a; left; rfl
  | cons x xs ih =>
    intro a
    rw [List.foldl_cons]
    rcases ih (min a x) with h | h
    · rcases min_choice a x with hm | hm
      · left; rw [h, hm]
      · right; rw [h, hm]; exact List.mem_cons_self x xs
    · right; exact List.mem_cons_of_mem x h

theorem mem_filterSolutions [LinearOrder β] (Solutions : List (Sol β)) (t : Sol β) :
    t ∈ filterSolutions Solutions ↔
      t ∈ Solutions ∧ ∀ u ∈ Solutions, t.score ≤ u.score := by
  cases Solutions with
  | nil => simp [filterSolutions]
  | cons s rest =>
    simp only [filterSolutions]
    rw [List.mem_filter]
    constructor
    · rintro ⟨ht, hle⟩
      rw [decide_eq_true_eq] at hle
      refine ⟨ht, ?_⟩
      intro u hu
      refine hle.trans ?_
      rcases List.mem_cons.mp hu with rfl | hu
      · exact (foldl_min_le (rest.map Sol.score) u.score).1
      · exact (foldl_min_le _ _).2 u.score (List.mem_map_of_mem _ hu)
    · rintro ⟨ht, hall⟩
      refine ⟨ht, ?_⟩
      rw [decide_eq_true_eq]
      rcases foldl_min_mem (rest.map Sol.score) s.score with h | h
      · rw [h]
        exact hall s (List.mem_cons_self s rest)
      · rw [List.mem_map] at h
        obtain ⟨u, hu, he⟩ := h
        rw [← he]
        exact hall u (List.mem_cons_of_mem s hu)

theorem filterSolutions_ne_nil [LinearOrder β] :
    ∀ Solutions : List (Sol β), Solutions ≠ [] → filterSolutions Solutions ≠ [] := by
  intro Solutions h
  cases Solutions with
  | nil => exact absurd rfl h
  | cons s rest =>
    have hex : ∃ t ∈ s :: rest, Sol.score t = (rest.map Sol.score).foldl min s.score := by
      rcases foldl_min_mem (rest.map Sol.score) s.score with hmem | hmem
      · exact ⟨s, List.mem_cons_self s rest, hmem.symm⟩
      · rw [List.mem_map] at hmem
        obtain ⟨u, hu, he⟩ := hmem
        exact ⟨u, List.mem_cons_of_mem s hu, he⟩
    obtain ⟨t, ht, hte⟩ := hex
    apply List.ne_nil_of_mem (a := t)
    simp only [filterSolutions]
    rw [List.mem_filter, decide_eq_true_eq]
    exact ⟨ht, le_of_eq hte⟩

theorem typeVariableRun_skip_defaultable :
    ∀ (bs : List TVBinding) (a s : Bool), ∀ e ∈ (typeVariableRun bs a s).2,
      e.anySolved = true → e.binding.isDefaultable = true → e.action = TVAction.skipped := by
  intro bs
  induction bs with
  | nil =>
    intro a s e he
    simp [typeVariableRun] at he
  | cons b rest ih =>
    intro a s e he h1 h2
    rw [typeVariableRun] at he
    by_cases hc1 : (a && b.isDefaultable) = true
    · rw [if_pos hc1] at he
      rcases List.mem_cons.mp he with rfl | he
      · rfl
      · exact ih a s e he h1 h2
    · rw [if_neg hc1] at he
      by_cases hc2 : (a && b.hasDefaultedProtocol && !s) = true
      · rw [if_pos hc2] at he
        rcases List.mem_cons.mp he with rfl | he
        · exfalso
          apply hc1
          rw [Bool.and_eq_true, Bool.and_eq_true] at hc2
          rw [Bool.and_eq_true]
          exact ⟨hc2.1.1, h2⟩
        · simp at he
      · rw [if_neg hc2] at he
        by_cases hc3 : b.attemptOk = true
        · rw [if_pos hc3] at he
          by_cases hc4 : ((a || b.solves) && b.needsNext) = true
          · rw [if_pos hc4] at he
            rcases List.mem_cons.mp he with rfl | he
            · exfalso
              apply hc1
              rw [Bool.and_eq_true]
              exact ⟨h1, h2⟩
            · simp at he
          · rw [if_neg hc4] at he
            rcases List.mem_cons.mp he with rfl | he
            · exfalso
              apply hc1
              rw [Bool.and_eq_true]
              exact ⟨h1, h2⟩
            · exact ih _ _ e he h1 h2
        · rw [if_neg hc3] at he
          rcases List.mem_cons.mp he with rfl | he
          · exfalso
            apply hc1
            rw [Bool.and_eq_true]
            exact ⟨h1, h2⟩
          · exact ih _ _ e he h1 h2

theorem typeVariableRun_stopped :
    ∀ (bs : List TVBinding) (a s : Bool), ∀ e ∈ (typeVariableRun bs a s).2,
      e.action = TVAction.stopped →
        e.anySolved = true ∧ e.binding.hasDefaultedProtocol = true ∧ e.sawLit = false := by
  intro bs
  induction bs with
  | nil =>
    intro a s e he
    simp [typeVariableRun] at he
  | cons b rest ih =>
    intro a s e he h1
    rw [typeVariableRun] at he
    by_cases hc1 : (a && b.isDefaultable) = true
    · rw [if_pos hc1] at he
      rcases List.mem_cons.mp he with rfl | he
      · exact absurd h1 (by simp)
      · exact ih _ _ e he h1
    · rw [if_neg hc1] at he
      by_cases hc2 : (a && b.hasDefaultedProtocol && !s) = true
      · rw [if_pos hc2] at he
        rcases List.mem_cons.mp he with rfl | he
        · rw [Bool.and_eq_true, Bool.and_eq_true] at hc2
          exact ⟨hc2.1.1, hc2.1.2, by simpa using hc2.2⟩
        · simp at he
      · rw [if_neg hc2] at he
        by_cases hc3 : b.attemptOk = true
        · rw [if_pos hc3] at he
          by_cases hc4 : ((a || b.solves) && b.needsNext) = true
          · rw [if_pos hc4] at he
            rcases List.mem_cons.mp he with rfl | he
            · exact absurd h1 (by simp)
            · simp at he
          · rw [if_neg hc4] at he
            rcases List.mem_cons.mp he with rfl | he
            · exact absurd h1 (by simp)
            · exact ih _ _ e he h1
        · rw [if_neg hc3] at he
          rcases List.mem_cons.mp he with rfl | he
          · exact absurd h1 (by simp)
          · exact ih _ _ e he h1

theorem typeVariableRun_stops_at_defaulted :
    ∀ (bs : List TVBinding) (a s : Bool), ∀ e ∈ (typeVariableRun bs a s).2,
      e.anySolved = true → e.binding.isDefaultable = false →
        e.binding.hasDefaultedProtocol = true → e.sawLit = false →
          e.action = TVAction.stopped := by
  intro bs
  induction bs with
  | nil =>
    intro a s e he
    simp [typeVariableRun] at he
  | cons b rest ih =>
    intro a s e he h1 h2 h3 h4
    rw [typeVariableRun] at he
    by_cases hc1 : (a && b.isDefaultable) = true
    · rw [if_pos hc1] at he
      rcases List.mem_cons.mp he with rfl | he
      · rw [Bool.and_eq_true] at hc1
        exact absurd hc1.2 (by rw [h2]; simp)
      · exact ih a s e he h1 h2 h3 h4
    · rw [if_neg hc1] at he
      by_cases hc2 : (a && b.hasDefaultedProtocol && !s) = true
      · rw [if_pos hc2] at he
        rcases List.mem_cons.mp he with rfl | he
        · rfl
        · simp at he
      · rw [if_neg hc2] at he
        by_cases hc3 : b.attemptOk = true
        · rw [if_pos hc3] at he
          by_cases hc4 : ((a || b.solves) && b.needsNext) = true
          · rw [if_pos hc4] at he
            rcases List.mem_cons.mp he with rfl | he
            · exfalso
              apply hc2
              rw [Bool.and_eq_true, Bool.and_eq_true]
              have h4' : s = false := h4
              refine ⟨⟨h1, h3⟩, ?_⟩
              rw [h4']
              rfl
            · simp at he
          · rw [if_neg hc4] at he
            rcases List.mem_cons.mp he with rfl | he
            · exfalso
              apply hc2
              rw [Bool.and_eq_true, Bool.and_eq_true]
              have h4' : s = false := h4
              refine ⟨⟨h1, h3⟩, ?_⟩
              rw [h4']
              rfl
            · exact ih _ _ e he h1 h2 h3 h4
        · rw [if_neg hc3] at he
          rcases List.mem_cons.mp he with rfl | he
          · exfalso
            apply hc2
            rw [Bool.and_eq_true, Bool.and_eq_true]
            have h4' : s = false := h4
            refine ⟨⟨h1, h3⟩, ?_⟩
            rw [h4']
            rfl
          · exact ih _ _ e he h1 h2 h3 h4

theorem typeVariableRun_stopped_last :
    ∀ (bs : List TVBinding) (a s : Bool), ∀ e ∈ (typeVariableRun bs a s).2,
      e.action = TVAction.stopped →
        (typeVariableRun bs a s).2.getLast? = some e := by
  intro bs
  induction bs with
  | nil =>
    intro a s e he
    simp [typeVariableRun] at he
  | cons b rest ih =>
    intro a s e he h1
    rw [typeVariableRun] at he ⊢
    by_cases hc1 : (a && b.isDefaultable) = true
    · rw [if_pos hc1] at he ⊢
      rcases List.mem_cons.mp he with rfl | he
      · exact absurd h1 (by simp)
      · have htail := ih a s e he h1
        have hne : (typeVariableRun rest a s).2 ≠ [] := List.ne_nil_of_mem he
        dsimp only
        rw [← htail]
        cases hl : (typeVariableRun rest a s).2 with
        | nil => exact absurd hl hne
        | cons y ys => rw [List.getLast?_cons_cons]
    · rw [if_neg hc1] at he ⊢
      by_cases hc2 : (a && b.hasDefaultedProtocol && !s) = true
      · rw [if_pos hc2] at he ⊢
        rcases List.mem_cons.mp he with rfl | he
        · rfl
        · simp at he
      · rw [if_neg hc2] at he ⊢
        by_cases hc3 : b.attemptOk = true
        · rw [if_pos hc3] at he ⊢
          by_cases hc4 : ((a || b.solves) && b.needsNext) = true
          · rw [if_pos hc4] at he
            rcases List.mem_cons.mp he with rfl | he
            · exact absurd h1 (by simp)
            · simp at he
          · rw [if_neg hc4] at he ⊢
            rcases List.mem_cons.mp he with rfl | he
            · exact absurd h1 (by simp)
            · have htail := ih _ _ e he h1
              have hne : (typeVariableRun rest (a || b.solves)
                  (s || b.hasDefaultedProtocol)).2 ≠ [] := List.ne_nil_of_mem he
              dsimp only
              rw [← htail]
              cases hl : (typeVariableRun rest (a || b.solves)
                  (s || b.hasDefaultedProtocol)).2 with
              | nil => exact absurd hl hne
              | cons y ys => rw [List.getLast?_cons_cons]
        · rw [if_neg hc3] at he ⊢
          rcases List.mem_cons.mp he with rfl | he
          · exact absurd h1 (by simp)
          · have htail := ih _ _ e he h1
            have hne : (typeVariableRun rest a
                (s || b.hasDefaultedProtocol)).2 ≠ [] := List.ne_nil_of_mem he
            dsimp only
            rw [← htail]
            cases hl : (typeVariableRun rest a
                (s || b.hasDefaultedProtocol)).2 with
            | nil => exact absurd hl hne
            | cons y ys => rw [List.getLast?_cons_cons]

theorem typeVariableRun_false_iff :
    ∀ (bs : List TVBinding) (a s : Bool),
      (typeVariableRun bs a s).1 = false ↔
        a = false ∧ ∀ e ∈ (typeVariableRun bs a s).2,
          e.action = TVAction.explored → e.binding.solves = false := by
  intro bs
  induction bs with
  | nil =>
    intro a s
    simp [typeVariableRun]
  | cons b rest ih =>
    intro a s
    rw [typeVariableRun]
    by_cases hc1 : (a && b.isDefaultable) = true
    · rw [if_pos hc1]
      rw [Bool.and_eq_true] at hc1
      dsimp only
      rw [ih]
      simp [hc1.1]
    · rw [if_neg hc1]
      by_cases hc2 : (a && b.hasDefaultedProtocol && !s) = true
      · rw [if_pos hc2]
        rw [Bool.and_eq_true, Bool.and_eq_true] at hc2
        simp [hc2.1.1]
      · rw [if_neg hc2]
        by_cases hc3 : b.attemptOk = true
        · rw [if_pos hc3]
          by_cases hc4 : ((a || b.solves) && b.needsNext) = true
          · rw [if_pos hc4]
            rw [Bool.and_eq_true, Bool.or_eq_true] at hc4
            dsimp only
            constructor
            · intro hfalse
              exact absurd hfalse (by simp)
            · rintro ⟨ha, hall⟩
              have hsolves := hall ⟨b, a, s, TVAction.explored⟩ (by simp) rfl
              rcases hc4.1 with h | h
              · rw [ha] at h
                exact absurd h (by simp)
              · rw [hsolves] at h
                exact absurd h (by simp)
          · rw [if_neg hc4]
            dsimp only
            rw [ih]
            constructor
            · rintro ⟨ha, hall⟩
              rw [Bool.or_eq_false_iff] at ha
              refine ⟨ha.1, ?_⟩
              intro e he
              rcases List.mem_cons.mp he with rfl | he
              · intro _
                exact ha.2
              · exact hall e he
            · rintro ⟨ha, hall⟩
              have hsolves := hall ⟨b, a, s, TVAction.explored⟩ (List.mem_cons_self _ _) rfl
              refine ⟨?_, ?_⟩
              · rw [ha, hsolves]
                rfl
              · intro e he
                exact hall e (List.mem_cons_of_mem _ he)
        · rw [if_neg hc3]
          dsimp only
          rw [ih]
          constructor
          · rintro ⟨ha, hall⟩
            refine ⟨ha, ?_⟩
            intro e he
            rcases List.mem_cons.mp he with rfl | he
            · intro hact
              exact absurd hact (by simp)
            · exact hall e he
          · rintro ⟨ha, hall⟩
            exact ⟨ha, fun e he => hall e (List.mem_cons_of_mem _ he)⟩

theorem typeVariableRun_false_exhausts :
    ∀ (bs : List TVBinding) (a s : Bool), (typeVariableRun bs a s).1 = false →
      (typeVariableRun bs a s).2.map TVEvent.binding = bs := by
  intro bs
  induction bs with
  | nil =>
    intro a s _
    simp [typeVariableRun]
  | cons b rest ih =>
    intro a s hfail
    rw [typeVariableRun] at hfail ⊢
    by_cases hc1 : (a && b.isDefaultable) = true
    · rw [if_pos hc1] at hfail ⊢
      simp only [List.map_cons]
      rw [ih _ _ hfail]
    · rw [if_neg hc1] at hfail ⊢
      by_cases hc2 : (a && b.hasDefaultedProtocol && !s) = true
      · rw [if_pos hc2] at hfail
        rw [Bool.and_eq_true, Bool.and_eq_true] at hc2
        exact absurd hfail (by rw [hc2.1.1]; simp)
      · rw [if_neg hc2] at hfail ⊢
        by_cases hc3 : b.attemptOk = true
        · rw [if_pos hc3] at hfail ⊢
          by_cases hc4 : ((a || b.solves) && b.needsNext) = true
          · rw [if_pos hc4] at hfail
            exact absurd hfail (by simp)
          · rw [if_neg hc4] at hfail ⊢
            simp only [List.map_cons]
            rw [ih _ _ hfail]
        · rw [if_neg hc3] at hfail ⊢
          simp only [List.map_cons]
          rw [ih _ _ hfail]

theorem applyUndo_applyChange (s : SolverState) (c : SolverChange) :
    applyUndo (applyChange s c) (recordUndo s c) = s := by
  cases c with
  | addTypeVariable v =>
    simp [applyChange, recordUndo, applyUndo, List.dropLast_concat]
  | addConstraint c =>
    simp [applyChange, recordUndo, applyUndo, List.dropLast_concat]
  | retireConstraint =>
    rcases List.eq_nil_or_concat s.InactiveConstraints with h | ⟨l, x, h⟩
    · have h2 : s.InactiveConstraints.dropLast = s.InactiveConstraints := by
        rw [h]; rfl
      have h3 : s.InactiveConstraints.getLast? = none := by rw [h]; rfl
      simp [applyChange, recordUndo, applyUndo, h2, h3]
    · rw [List.concat_eq_append] at h
      have h2 : s.InactiveConstraints.dropLast = l := by
        rw [h, List.dropLast_concat]
      have h3 : s.InactiveConstraints.getLast? = some x := by
        rw [h, List.getLast?_concat]
      simp only [applyChange, recordUndo, applyUndo, h2, h3]
      rw [← h]
  | assignFixedType v t =>
    simp [applyChange, recordUndo, applyUndo, List.dropLast_concat]

theorem releaseScope_applyChanges :
    ∀ (cs : List SolverChange) (s : SolverState),
      releaseScope (applyChanges s cs).1 (applyChanges s cs).2 = s := by
  intro cs
  induction cs with
  | nil => intro s; rfl
  | cons c cs ih =>
    intro s
    show releaseScope (applyChanges (applyChange s c) cs).1
      ((applyChanges (applyChange s c) cs).2 ++ [recordUndo s c]) = s
    rw [releaseScope, List.foldl_append]
    have hmid := ih (applyChange s c)
    rw [releaseScope] at hmid
    rw [hmid, List.foldl_cons, List.foldl_nil, applyUndo_applyChange]

theorem bestBindingsGuard_iff (ctx : ComponentCtx) :
    bestBindingsGuard ctx = true ↔
      ∃ b, ctx.bestBindings = some b ∧
        (ctx.disjunction = false ∨
          (b.InvolvesTypeVariables = false ∧ b.FullyBound = false)) := by
  rw [bestBindingsGuard]
  rcases hbb : ctx.bestBindings with _ | b
  · simp
  · simp [Bool.or_eq_true, Bool.and_eq_true, Bool.not_eq_true']

theorem if_true_or (b x : Bool) : (if b = true then true else x) = (b || x) := by
  cases b <;> simp

theorem shortCircuitDisjunctionAt_iff (hacks : Bool) (cur last : DisjunctionChoice) :
    shortCircuitDisjunctionAt hacks cur last = true ↔
      hacks = false ∧
        ((last.isFavored = true ∧ cur.isFavored = false) ∨
         (cur.hasFix = true ∧ last.hasFix = false) ∨
         cur.restriction = some ConversionRestrictionKind.OptionalToOptional ∨
         (cur.restriction = some ConversionRestrictionKind.InoutToPointer ∧
           last.restriction = some ConversionRestrictionKind.ArrayToPointer) ∨
         cur.kind = ConstraintKind.CheckedCast) := by
  cases hacks with
  | true => simp [shortCircuitDisjunctionAt]
  | false =>
    rw [shortCircuitDisjunctionAt]
    rcases hcr : cur.restriction with _ | r
    · simp only [Bool.false_eq_true, if_false, hcr, if_true_or]
      simp only [Bool.or_eq_true, Bool.and_eq_true, Bool.not_eq_true', beq_iff_eq]
      constructor
      · intro h
        exact ⟨by trivial, by tauto⟩
      · rintro ⟨-, h⟩
        rcases h with h | h | h | h | h
        · tauto
        · tauto
        · exact absurd h (by simp)
        · exact absurd h.1 (by simp)
        · tauto
    · rcases hlr : last.restriction with _ | lr
      · simp only [Bool.false_eq_true, if_false, hcr, hlr, if_true_or]
        simp only [Bool.or_eq_true, Bool.and_eq_true, Bool.not_eq_true', beq_iff_eq,
          Option.some.injEq]
        constructor
        · intro h
          exact ⟨by trivial, by tauto⟩
        · rintro ⟨-, h⟩
          rcases h with h | h | h | h | h
          · tauto
          · tauto
          · tauto
          · exact absurd h.2 (by simp)
          · tauto
      · simp only [Bool.false_eq_true, if_false, hcr, hlr, if_true_or]
        simp only [Bool.or_eq_true, Bool.and_eq_true, Bool.not_eq_true', beq_iff_eq,
          Option.some.injEq]
        constructor
        · intro h
          exact ⟨by trivial, by tauto⟩
        · rintro ⟨-, h⟩
          tauto

/-- Claim C1: `SplitterStep::mergePartialSolutions` enumerates, for component
partial-solution lists of sizes `n1..nk` (each `ni ≥ 1`), every combination
(one partial solution per component) exactly once, in mixed-radix counter
order with the last component's index incrementing fastest (the order of
`allTuples`). -/
theorem splitter_merge_enumerates_combinations {α β : Type} (Partials : List (List α))
    (worse : β → List (Option α) → Bool) (record : β → List (Option α) → β) (best0 : β)
    (_hk : Partials ≠ []) (hne : ∀ l ∈ Partials, l ≠ []) :
    (mergePartialSolutions Partials worse record best0).visited =
        allTuples (Partials.map List.length) ∧
      (mergePartialSolutions Partials worse record best0).visited.Nodup ∧
      ∀ t, t ∈ (mergePartialSolutions Partials worse record best0).visited ↔
          List.Forall₂ (· < ·) t (Partials.map List.length) := by
  have hpos : ∀ n ∈ Partials.map List.length, 0 < n := by
    intro n hn
    rw [List.mem_map] at hn
    obtain ⟨l, hl, rfl⟩ := hn
    exact List.length_pos.mpr (hne l hl)
  have h1 : (mergePartialSolutions Partials worse record best0).visited =
      allTuples (Partials.map List.length) := by
    rw [mergePartialSolutions_spec Partials worse record best0 hne]
    exact (allTuples_eq_map_decode _ hpos).symm
  refine ⟨h1, ?_, ?_⟩
  · rw [h1]
    exact allTuples_nodup _ hpos
  · intro t
    rw [h1]
    exact mem_allTuples _ t

theorem splitter_merge_enumerates_combinations_witness :
    ([[10, 20], [30]] : List (List Nat)) ≠ [] ∧
      (∀ l ∈ ([[10, 20], [30]] : List (List Nat)), l ≠ []) ∧
      (mergePartialSolutions ([[10, 20], [30]] : List (List Nat))
          (fun (_ : Nat) _ => false) (fun b _ => b) 0).visited = allTuples [2, 1] :=
  ⟨by decide, by decide,
    (splitter_merge_enumerates_combinations [[10, 20], [30]]
      (fun _ _ => false) (fun b _ => b) 0 (by decide) (by decide)).1⟩

/-- Claim C2: during the merge, a `Solution` is finalized and recorded for
exactly the visited combinations that are not worse than the evolving
best-solution state (the `pruneFold` pass over the visited selections), the
`anySolutions` result is true exactly when some solution was recorded, and
every recorded solution is one of the visited selections. -/
theorem splitter_merge_branch_and_bound {α β : Type} (Partials : List (List α))
    (worse : β → List (Option α) → Bool) (record : β → List (Option α) → β) (best0 : β)
    (_hk : Partials ≠ []) (hne : ∀ l ∈ Partials, l ≠ []) :
    (mergePartialSolutions Partials worse record best0).solutions =
        (pruneFold worse record best0
          (mergePartialSolutions Partials worse record best0).selections).2 ∧
      (mergePartialSolutions Partials worse record best0).anySolutions =
        !(mergePartialSolutions Partials worse record best0).solutions.isEmpty ∧
      (mergePartialSolutions Partials worse record best0).solutions.Sublist
        (mergePartialSolutions Partials worse record best0).selections := by
  rw [mergePartialSolutions_spec Partials worse record best0 hne]
  exact ⟨rfl, rfl, pruneFold_sublist worse record best0 _⟩

theorem splitter_merge_branch_and_bound_witness :
    (mergePartialSolutions ([[1], [2, 3]] : List (List Nat))
        (fun (b : Nat) _ => decide (b > 0)) (fun b _ => b + 1) 0).anySolutions =
      !(mergePartialSolutions ([[1], [2, 3]] : List (List Nat))
        (fun (b : Nat) _ => decide (b > 0)) (fun b _ => b + 1) 0).solutions.isEmpty :=
  (splitter_merge_branch_and_bound [[1], [2, 3]]
    (fun b _ => decide (b > 0)) (fun b _ => b + 1) 0 (by decide) (by decide)).2.1

/-- Claim C3 (amended): `ComponentStep::resume` with `prevFailed = false`
subtracts the recorded original score from every accumulated partial
solution, filters the result to the minimal-score subset (ties kept), and
returns `done(true)`; with `prevFailed = true` it instead returns
`done(false)` with the solution list untouched. -/
theorem component_resume_normalizes_and_filters {β : Type} [LinearOrder β] [Sub β]
    (OriginalScore : β) (Solutions : List (Sol β)) :
    (componentResume false OriginalScore Solutions).1 = true ∧
      (∀ t, t ∈ (componentResume false OriginalScore Solutions).2 ↔
        t ∈ Solutions.map (fun s => { s with score := s.score - OriginalScore }) ∧
          ∀ u ∈ Solutions.map (fun s => { s with score := s.score - OriginalScore }),
            t.score ≤ u.score) ∧
      componentResume true OriginalScore Solutions = (false, Solutions) := by
  refine ⟨rfl, ?_, rfl⟩
  intro t
  rw [componentResume, if_neg (by simp)]
  exact mem_filterSolutions _ t

theorem component_resume_normalizes_and_filters_witness :
    (componentResume false 2 [⟨5⟩, ⟨3⟩] : Bool × List (Sol Nat)).1 = true :=
  (component_resume_normalizes_and_filters 2 [⟨5⟩, ⟨3⟩]).1

/-- Claim C3, counterexample to the claim as stated: `ComponentStep::resume`
does not always return `done(true)` — with `prevFailed = true`
(CSStep.cpp:258-259) it returns `done(false)`, even with a recorded partial
solution present. -/
theorem component_resume_always_success_counterexample :
    ¬ ((componentResume (β := Nat) true 0 [⟨3⟩]).1 = true) := by decide

/-- Claim C4: with `prevFailed = false`, `ComponentStep::take` suspends with
a Type Variable Step exactly when `determineBestBindings` produced bindings
and either no disjunction exists or the binding set neither involves type
variables nor is fully bound; it suspends with a Disjunction Step exactly
when that guard fails and a disjunction exists (CSStep.cpp:215-222). -/
theorem component_take_work_priority (ctx : ComponentCtx) :
    (componentTake false ctx = ComponentTakeResult.suspendTypeVariableStep ↔
      ∃ b, ctx.bestBindings = some b ∧
        (ctx.disjunction = false ∨
          (b.InvolvesTypeVariables = false ∧ b.FullyBound = false))) ∧
    (componentTake false ctx = ComponentTakeResult.suspendDisjunctionStep ↔
      ctx.disjunction = true ∧
        ¬ ∃ b, ctx.bestBindings = some b ∧
          (ctx.disjunction = false ∨
            (b.InvolvesTypeVariables = false ∧ b.FullyBound = false))) := by
  rw [← bestBindingsGuard_iff]
  rw [componentTake, if_neg (by simp : ¬(false = true))]
  by_cases hg : bestBindingsGuard ctx = true
  · rw [if_pos hg]
    simp [hg]
  · rw [if_neg hg]
    by_cases hd : ctx.disjunction = true
    · rw [if_pos hd]
      simp [hg, hd]
    · rw [if_neg hd]
      split_ifs <;> simp [hg, hd]

theorem component_take_work_priority_witness :
    componentTake false
      { disjunction := true, bestBindings := some ⟨false, false⟩,
        allowsFreeTypeVariables := false, hasFreeTypeVariables := false,
        worseThanBestSolution := false, InactiveConstraints := [] } =
      ComponentTakeResult.suspendTypeVariableStep :=
  (component_take_work_priority _).1.mpr ⟨⟨false, false⟩, rfl, Or.inr ⟨rfl, rfl⟩⟩

/-- Claim C5: for a component with no bindable type variable and no
disjunction, `ComponentStep::take` returns `done(false)` exactly when free
type variables are disallowed, absent, the current score is worse than the
best solution, or some remaining inactive constraint is neither relational
nor member; otherwise it finalizes and records a `Solution` and returns
`done(true)` (CSStep.cpp:227-254). -/
theorem component_take_free_variables (ctx : ComponentCtx)
    (hbb : ctx.bestBindings = none) (hd : ctx.disjunction = false) :
    (componentTake false ctx = ComponentTakeResult.doneSuccess ↔
       ctx.allowsFreeTypeVariables = true ∧ ctx.hasFreeTypeVariables = true ∧
       ctx.worseThanBestSolution = false ∧
       ∀ c ∈ ctx.InactiveConstraints,
         c = ConstraintClassification.Relational ∨ c = ConstraintClassification.Member) ∧
    (componentTake false ctx = ComponentTakeResult.doneFailure ↔
       ctx.allowsFreeTypeVariables = false ∨ ctx.hasFreeTypeVariables = false ∨
       ctx.worseThanBestSolution = true ∨
       ∃ c ∈ ctx.InactiveConstraints,
         c ≠ ConstraintClassification.Relational ∧ c ≠ ConstraintClassification.Member) := by
  have hg : bestBindingsGuard ctx = false := by simp [bestBindingsGuard, hbb]
  rw [componentTake, if_neg (by simp : ¬(false = true)), if_neg (by simp [hg]),
    if_neg (by simp [hd])]
  cases ha : ctx.allowsFreeTypeVariables with
  | false => simp
  | true =>
    cases hf : ctx.hasFreeTypeVariables with
    | false => simp
    | true =>
      cases hw : ctx.worseThanBestSolution with
      | true => simp
      | false =>
        cases hall : ctx.InactiveConstraints.all
            (fun c => c == ConstraintClassification.Relational
                   || c == ConstraintClassification.Member) with
        | true =>
          have hall' : ∀ c ∈ ctx.InactiveConstraints,
              c = ConstraintClassification.Relational
                ∨ c = ConstraintClassification.Member := by
            rw [List.all_eq_true] at hall
            intro c hc
            have h := hall c hc
            rw [Bool.or_eq_true, beq_iff_eq, beq_iff_eq] at h
            exact h
          refine ⟨iff_of_true (by simp) ⟨rfl, rfl, rfl, hall'⟩,
            iff_of_false (by simp) ?_⟩
          rintro (h | h | h | ⟨c, hc, hnr, hnm⟩)
          · simp at h
          · simp at h
          · simp at h
          · rcases hall' c hc with h | h
            · exact hnr h
            · exact hnm h
        | false =>
          have hex : ∃ c ∈ ctx.InactiveConstraints,
              c ≠ ConstraintClassification.Relational
                ∧ c ≠ ConstraintClassification.Member := by
            have hnall : ¬ ∀ c ∈ ctx.InactiveConstraints,
                (c == ConstraintClassification.Relational
                  || c == ConstraintClassification.Member) = true := by
              rw [← List.all_eq_true, hall]
              simp
            push_neg at hnall
            obtain ⟨c, hc, hnc⟩ := hnall
            refine ⟨c, hc, ?_⟩
            have hnc' : (c == ConstraintClassification.Relational
                || c == ConstraintClassification.Member) = false := by
              cases h : (c == ConstraintClassification.Relational
                  || c == ConstraintClassification.Member) with
              | true => exact absurd h hnc
              | false => rfl
            rw [Bool.or_eq_false_iff, beq_eq_false_iff_ne, beq_eq_false_iff_ne] at hnc'
            exact hnc'
          refine ⟨iff_of_false (by simp) ?_, iff_of_true (by simp) ?_⟩
          · rintro ⟨-, -, -, hall'⟩
            obtain ⟨c, hc, hnr, hnm⟩ := hex
            rcases hall' c hc with h | h
            · exact hnr h
            · exact hnm h
          · exact Or.inr (Or.inr (Or.inr hex))

theorem component_take_free_variables_witness :
    componentTake false
      { disjunction := false, bestBindings := none,
        allowsFreeTypeVariables := true, hasFreeTypeVariables := true,
        worseThanBestSolution := false,
        InactiveConstraints := [ConstraintClassification.Relational] } =
      ComponentTakeResult.doneSuccess :=
  (component_take_free_variables _ rfl rfl).1.mpr ⟨rfl, rfl, rfl, by decide⟩

/-- Claim C6: `DisjunctionStep::shouldSkipChoice` always skips a disabled
choice; skips an unavailable choice unless the solver is attempting fixes;
and, for a choice not already skipped by those rules, skips exactly the
generic-operator choices when performance hacks are enabled and a recorded
best non-generic score has zero forced-unchecked, unavailable, fix and
function-conversion counters (CSStep.cpp:434-476). -/
theorem disjunction_should_skip_choice (ctx : DisjunctionCtx) (choice : DisjunctionChoice) :
    (choice.isDisabled = true → shouldSkipChoice ctx choice = true) ∧
    (choice.isDisabled = false → choice.isUnavailable = true →
      ctx.shouldAttemptFixes = false → shouldSkipChoice ctx choice = true) ∧
    (choice.isDisabled = false →
      (choice.isUnavailable = false ∨ ctx.shouldAttemptFixes = true) →
      (shouldSkipChoice ctx choice = true ↔
        choice.isGenericOperator = true ∧
        ctx.DisableConstraintSolverPerformanceHacks = false ∧
        ∃ best, ctx.BestNonGenericScore = some best ∧
          best.forceUnchecked = 0 ∧ best.unavailable = 0 ∧ best.fix = 0 ∧
          best.functionConversion = 0)) := by
  refine ⟨?_, ?_, ?_⟩
  · intro h
    simp [shouldSkipChoice, h]
  · intro h1 h2 h3
    simp [shouldSkipChoice, h1, h2, h3]
  · intro h1 h2
    have hskip : (!ctx.shouldAttemptFixes && choice.isUnavailable) = false := by
      rcases h2 with h | h <;> simp [h]
    rw [shouldSkipChoice, if_neg (by simp [h1]), if_neg (by simp [hskip])]
    cases hhack : ctx.DisableConstraintSolverPerformanceHacks with
    | true => simp
    | false =>
      rw [if_neg (by simp)]
      rcases hbest : ctx.BestNonGenericScore with _ | best
      · simp [hbest]
      · simp only [hbest]
        cases hcond : (choice.isGenericOperator && best.forceUnchecked == 0
            && best.unavailable == 0 && best.fix == 0
            && best.functionConversion == 0) with
        | true =>
          simp only [Bool.and_eq_true, beq_iff_eq] at hcond
          obtain ⟨⟨⟨⟨hg, h0⟩, hu⟩, hx⟩, hc⟩ := hcond
          exact iff_of_true (by simp) ⟨hg, trivial, best, rfl, h0, hu, hx, hc⟩
        | false =>
          refine iff_of_false (by simp) ?_
          rintro ⟨hg, -, best', hbest', h0, hu, hx, hc⟩
          rw [Option.some.injEq] at hbest'
          subst hbest'
          exact absurd hcond (by simp [hg, h0, hu, hx, hc])

theorem disjunction_should_skip_choice_witness :
    shouldSkipChoice
      { shouldAttemptFixes := false, DisableConstraintSolverPerformanceHacks := false,
        BestNonGenericScore := none, LastSolvedChoice := none,
        CurrentScore := ⟨0, 0, 0, 0, 0⟩ }
      { isDisabled := true, isUnavailable := false, isGenericOperator := false,
        isFavored := false, hasFix := false, restriction := none,
        kind := ConstraintKind.OtherKind } = true :=
  (disjunction_should_skip_choice _ _).1 rfl

/-- Claim C7: `DisjunctionStep` short-circuits at a choice exactly when an
earlier choice was solved, the score delta against the current score shows
no unavailable-overload usage and no fixes, and — with performance hacks
enabled — one of the dominance rules holds: last choice favored while the
current is not; current carries a fix while the last does not; current is an
optional-to-optional conversion; current is inout-to-pointer while the last
is array-to-pointer; or current is a checked cast (CSStep.cpp:478-541). -/
theorem disjunction_short_circuit_iff (ctx : DisjunctionCtx) (choice : DisjunctionChoice) :
    shouldShortCircuitAt ctx choice = true ↔
      ∃ last score, ctx.LastSolvedChoice = some (last, score) ∧
        (Score.sub score ctx.CurrentScore).unavailable = 0 ∧
        (Score.sub score ctx.CurrentScore).fix = 0 ∧
        ctx.DisableConstraintSolverPerformanceHacks = false ∧
        ((last.isFavored = true ∧ choice.isFavored = false) ∨
         (choice.hasFix = true ∧ last.hasFix = false) ∨
         choice.restriction = some ConversionRestrictionKind.OptionalToOptional ∨
         (choice.restriction = some ConversionRestrictionKind.InoutToPointer ∧
           last.restriction = some ConversionRestrictionKind.ArrayToPointer) ∨
         choice.kind = ConstraintKind.CheckedCast) := by
  rw [shouldShortCircuitAt]
  rcases hl : ctx.LastSolvedChoice with _ | ⟨last, score⟩
  · simp
  · dsimp only
    simp only [Bool.and_eq_true, Bool.not_eq_true', decide_eq_false_iff_not, not_lt,
      Nat.le_zero, shortCircuitDisjunctionAt_iff, Option.some.injEq, Prod.mk.injEq]
    constructor
    · rintro ⟨⟨hu, hx⟩, hhack, hdom⟩
      exact ⟨last, score, ⟨rfl, rfl⟩, hu, hx, hhack, hdom⟩
    · rintro ⟨last', score', ⟨hl1, hl2⟩, hu, hx, hhack, hdom⟩
      subst hl1
      subst hl2
      exact ⟨⟨hu, hx⟩, hhack, hdom⟩

theorem disjunction_short_circuit_witness :
    shouldShortCircuitAt
      { shouldAttemptFixes := false, DisableConstraintSolverPerformanceHacks := false,
        BestNonGenericScore := none,
        LastSolvedChoice := some
          (⟨false, false, false, true, false, none, ConstraintKind.OtherKind⟩,
            ⟨0, 0, 0, 0, 0⟩),
        CurrentScore := ⟨0, 0, 0, 0, 0⟩ }
      { isDisabled := false, isUnavailable := false, isGenericOperator := false,
        isFavored := false, hasFix := false, restriction := none,
        kind := ConstraintKind.OtherKind } = true :=
  (disjunction_short_circuit_iff _ _).mpr
    ⟨_, _, rfl, rfl, rfl, rfl, Or.inl ⟨rfl, rfl⟩⟩

/-- Claim C8: in the `TypeVariableStep` loop started with no solution found,
every defaultable binding produced while `AnySolved` holds is skipped;
enumeration actually stops when a non-defaultable defaulted-protocol binding
is produced with `AnySolved` set and no literal constraint seen (the binding
gets the `stopped` action, and a stopped event is the last event of the
trace — nothing is enumerated after it); stops happen only under those
conditions; and the step returns `done(false)` exactly when no explored
binding led to a solution, in which case the whole producer sequence was
consumed (CSStep.cpp:291-360). -/
theorem type_variable_step_defaults_and_exhaustion (bs : List TVBinding) :
    (∀ e ∈ (typeVariableRun bs false false).2,
        e.anySolved = true → e.binding.isDefaultable = true →
          e.action = TVAction.skipped) ∧
    (∀ e ∈ (typeVariableRun bs false false).2, e.action = TVAction.stopped →
        e.anySolved = true ∧ e.binding.hasDefaultedProtocol = true ∧ e.sawLit = false) ∧
    (∀ e ∈ (typeVariableRun bs false false).2,
        e.anySolved = true → e.binding.isDefaultable = false →
          e.binding.hasDefaultedProtocol = true → e.sawLit = false →
            e.action = TVAction.stopped) ∧
    (∀ e ∈ (typeVariableRun bs false false).2, e.action = TVAction.stopped →
        (typeVariableRun bs false false).2.getLast? = some e) ∧
    ((typeVariableRun bs false false).1 = false ↔
        ∀ e ∈ (typeVariableRun bs false false).2,
          e.action = TVAction.explored → e.binding.solves = false) ∧
    ((typeVariableRun bs false false).1 = false →
        (typeVariableRun bs false false).2.map TVEvent.binding = bs) := by
  refine ⟨typeVariableRun_skip_defaultable bs false false,
    typeVariableRun_stopped bs false false,
    typeVariableRun_stops_at_defaulted bs false false,
    typeVariableRun_stopped_last bs false false, ?_,
    typeVariableRun_false_exhausts bs false false⟩
  rw [typeVariableRun_false_iff]
  simp

theorem type_variable_step_witness :
    (typeVariableRun [⟨false, false, true, false, false⟩] false false).1 = false :=
  (type_variable_step_defaults_and_exhaustion
    [⟨false, false, true, false, false⟩]).2.2.2.2.1.mpr (by decide)

/-- Claim C9: releasing a solver scope after an arbitrary sequence of
tracked state changes (adding type variables, adding or retiring
constraints, assigning fixed types) restores the tracked type-variable set,
the tracked constraint set and the variable bindings exactly to their state
at scope creation, regardless of what was explored under the scope. -/
theorem scope_rollback_exact (s : SolverState) (cs : List SolverChange) :
    releaseScope (applyChanges s cs).1 (applyChanges s cs).2 = s :=
  releaseScope_applyChanges cs s

/-- Claim C10: when every component's partial-solution list is non-empty (as
holds whenever no component reported failure), every access
`PartialSolutions[i][indices[i]]` performed during combination enumeration
is within bounds; and a `ComponentStep::resume` with a non-empty accumulated
solution list succeeds with a non-empty filtered list. -/
theorem splitter_merge_access_in_bounds {α β : Type} (Partials : List (List α))
    (worse : β → List (Option α) → Bool) (record : β → List (Option α) → β) (best0 : β)
    (_hk : Partials ≠ []) (hne : ∀ l ∈ Partials, l ≠ []) :
    (∀ sel ∈ (mergePartialSolutions Partials worse record best0).selections,
        ∀ o ∈ sel, o.isSome = true) ∧
      ∀ (γ : Type) [LinearOrder γ] [Sub γ] (base : γ) (sols : List (Sol γ)),
        sols ≠ [] →
          (componentResume false base sols).1 = true ∧
            (componentResume false base sols).2 ≠ [] := by
  constructor
  · have hpos : ∀ n ∈ Partials.map List.length, 0 < n := by
      intro n hn
      rw [List.mem_map] at hn
      obtain ⟨l, hl, rfl⟩ := hn
      exact List.length_pos.mpr (hne l hl)
    rw [mergePartialSolutions_spec Partials worse record best0 hne]
    intro sel hsel
    simp only [List.mem_map, List.mem_range] at hsel
    obtain ⟨w, hw, rfl⟩ := hsel
    exact select_isSome Partials _ (decode_forall₂ _ hpos w hw)
  · intro γ _ _ base sols hsols
    rw [componentResume, if_neg (by simp)]
    refine ⟨rfl, filterSolutions_ne_nil _ ?_⟩
    intro hmap
    exact hsols (List.map_eq_nil_iff.mp hmap)

theorem splitter_merge_access_in_bounds_witness :
    [some 5, some 6] ∈ (mergePartialSolutions ([[5], [6, 7]] : List (List Nat))
        (fun (_ : Nat) _ => false) (fun b _ => b) 0).selections ∧
      (some 5 : Option Nat).isSome = true :=
  ⟨by decide,
    (splitter_merge_access_in_bounds [[5], [6, 7]]
      (fun _ _ => false) (fun b _ => b) 0 (by decide) (by decide)).1
      [some 5, some 6] (by decide) (some 5) (by decide)⟩

end CSStep
